import Mathlib

/-!
# lan-speed-tester-go: statistics, measurement loop, parallel runner, upload handler

A shallow embedding of `client/client.go` and `server/server.go`.

Conventions of the embedding

* `float64` values are rationals (`ℚ`): every statement is over exact arithmetic.
* A Go slice is the list of its elements.  A function that writes through the
  slice it receives returns, next to its Go result, the contents of the
  caller's slice after the call.
* Console output is a list of structured lines, one per `Printf` / `Println`.
* A call of `parallelDownload` / `parallelUpload` is a transition system: the
  goroutine running the function and the worker goroutines take their
  statements one at a time, in any interleaving, while the wall clock advances.
  Receiving from `startSignal` is enabled only once the channel is closed, and
  `wg.Wait()` only once the counter is zero.
* Go strings are lists of characters; `strconv.ParseInt` reads them one
  character at a time.
-/

namespace LanSpeedTester

/-! ## `client/client.go`: constants -/

/-- Constant `dataSizeMB` of the client (and of the server). -/
def dataSizeMB : Nat := 10

/-- Constant `numMeasurements`. -/
def numMeasurements : Nat := 5

/-- Constant `threads`. -/
def threads : Int := 4

/-! ## `client/client.go`: statistics -/

/-- Standard library `sort.Float64s`: sorts the slice in place in increasing
order.  On at most twelve elements the library runs an insertion sort; the
result is in any case the ascending arrangement of the elements. -/
def sortFloat64s (speeds : List ℚ) : List ℚ :=
  speeds.insertionSort (· ≤ ·)

/-- Go `calculateAverage`. -/
def calculateAverage (speeds : List ℚ) : ℚ :=
  if speeds.length = 0 then 0
  else
    let total := speeds.foldl (fun total speed => total + speed) 0
    total / (speeds.length : ℚ)

/-- Go `calculateMedian`.  The first component is the returned value, the
second the contents of the argument slice when the function returns
(`sort.Float64s(speeds)` sorts the caller's backing array). -/
def calculateMedian (speeds : List ℚ) : ℚ × List ℚ :=
  if speeds.length = 0 then (0, speeds)
  else
    let speeds := sortFloat64s speeds
    let mid := speeds.length / 2
    if speeds.length % 2 = 0 then
      ((speeds.getD (mid - 1) 0 + speeds.getD mid 0) / 2, speeds)
    else
      (speeds.getD mid 0, speeds)

/-- Go `analyzeSpeeds`: `(average, median)` and the contents of the argument
slice when the function returns. -/
def analyzeSpeeds (speeds : List ℚ) : (ℚ × ℚ) × List ℚ :=
  let average := calculateAverage speeds
  let r := calculateMedian speeds
  ((average, r.1), r.2)

/-! ## `client/client.go`: output and the measurement loop of `main` -/

/-- One printed line. -/
inductive Line where
  /-- Line `"Measuring download speed..."` or `"\nMeasuring upload speed..."`. -/
  | measuring (testType : String)
  /-- Line `"Measurement %d: %.2f Mbps\n"`. -/
  | measurement (n : Nat) (speed : ℚ)
  /-- Line `"\n===== %s Speed Test Results =====\n"`. -/
  | header (testType : String)
  /-- Line `"\nAverage Speed: %.2f Mbps\n"`. -/
  | average (avg : ℚ)
  /-- Line `"Median Speed: %.2f Mbps\n"`. -/
  | median (m : ℚ)
  /-- Line `"==================================="`. -/
  | footer
  deriving DecidableEq, Repr

/-- Go `displayResults`. -/
def displayResults (testType : String) (speeds : List ℚ) (avg median : ℚ) : List Line :=
  [Line.header testType]
    ++ speeds.enum.map (fun p => Line.measurement (p.1 + 1) p.2)
    ++ [Line.average avg, Line.median median, Line.footer]

/-- The loop `for i := 0; i < rounds; i++ { speeds[i] = runner(); Printf(...) }`
of `main`.  The first argument counts the iterations still to run (`rounds - i`).
The runner reads and changes the outside world `σ` (network, clock). -/
def measureLoop {σ : Type} (runner : σ → ℚ × σ) :
    Nat → Nat → List ℚ → σ → List Line → List ℚ × σ × List Line
  | 0, _, speeds, w, out => (speeds, w, out)
  | k + 1, i, speeds, w, out =>
    let r := runner w
    let speeds := speeds.set i r.1
    measureLoop runner k (i + 1) speeds r.2 (out ++ [Line.measurement (i + 1) (speeds.getD i 0)])

/-- The collection phase of `main` for one direction: `make([]float64, rounds)`
followed by the measurement loop. -/
def collect {σ : Type} (runner : σ → ℚ × σ) (rounds : Nat) (w : σ) :
    List ℚ × σ × List Line :=
  measureLoop runner rounds 0 (List.replicate rounds 0) w []

/-- One half of `main` (download or upload): collect `numMeasurements`
samples, analyse them, display the results.  Returns the world and the output. -/
def campaign {σ : Type} (testType : String) (runner : σ → ℚ × σ) (w : σ) : σ × List Line :=
  let c := collect runner numMeasurements w
  let a := analyzeSpeeds c.1
  (c.2.1, [Line.measuring testType] ++ c.2.2 ++ displayResults testType a.2 a.1.1 a.1.2)

/-- Go `main` of the client, over the two runners. -/
def clientMain {σ : Type} (download upload : σ → ℚ × σ) (w : σ) : σ × List Line :=
  let d := campaign "Download" download w
  let u := campaign "Upload" upload d.1
  (u.1, d.2 ++ u.2)

/-- World after `i` invocations of the runner. -/
def worldAfter {σ : Type} (runner : σ → ℚ × σ) (w : σ) : Nat → σ
  | 0 => w
  | i + 1 => (runner (worldAfter runner w i)).2

/-- Sample returned by invocation number `i` (counted from 0) of the runner. -/
def nthSample {σ : Type} (runner : σ → ℚ × σ) (w : σ) (i : Nat) : ℚ :=
  (runner (worldAfter runner w i)).1

/-- A runner that replays a fixed list of samples (the world is the list of
samples still to come). -/
def replay : List ℚ → ℚ × List ℚ
  | [] => (0, [])
  | x :: xs => (x, xs)

/-! ## `server/server.go`: the `/upload` handler -/

/-- Constant `maxUploadSize` of the server (100 MB). -/
def maxUploadSize : Int := 100 * 1024 * 1024

/-- The two errors of the standard library `strconv`: `ErrSyntax` and `ErrRange`. -/
inductive NumError where
  | errSyntax
  | errRange
  deriving DecidableEq, Repr

/-- Result of a `strconv` conversion. -/
inductive Parsed (α : Type) where
  | ok (value : α)
  | err (e : NumError)
  deriving DecidableEq, Repr

/-- Standard library `lower` of `strconv`: `c | ('x' - 'X')` on a byte. -/
def lower (c : Nat) : Nat := c ||| 32

/-- The digit loop of standard library `strconv.ParseUint(s, 10, 64)`, on the
characters still to read and the accumulator `n` (a `uint64`).  A character
outside ASCII stands for UTF-8 bytes that are all at least 128; it takes
the `default` branch like each of those bytes. -/
def parseUintLoop : List Char → Nat → Parsed Nat
  | [], n => Parsed.ok n
  | c :: cs, n =>
    let b := c.toNat
    if 48 ≤ b ∧ b ≤ 57 then
      let d := b - 48
      if d ≥ 10 then Parsed.err NumError.errSyntax
      else if n ≥ (2 ^ 64 - 1) / 10 + 1 then Parsed.err NumError.errRange
      else
        let n := n * 10 % 2 ^ 64
        let n1 := (n + d) % 2 ^ 64
        if n1 < n ∨ n1 > 2 ^ 64 - 1 then Parsed.err NumError.errRange
        else parseUintLoop cs n1
    else if 97 ≤ lower b ∧ lower b ≤ 122 then
      let d := lower b - 97 + 10
      if d ≥ 10 then Parsed.err NumError.errSyntax
      else if n ≥ (2 ^ 64 - 1) / 10 + 1 then Parsed.err NumError.errRange
      else
        let n := n * 10 % 2 ^ 64
        let n1 := (n + d) % 2 ^ 64
        if n1 < n ∨ n1 > 2 ^ 64 - 1 then Parsed.err NumError.errRange
        else parseUintLoop cs n1
    else Parsed.err NumError.errSyntax

/-- Standard library `strconv.ParseUint(s, 10, 64)`. -/
def parseUint (cs : List Char) : Parsed Nat :=
  if cs = [] then Parsed.err NumError.errSyntax
  else parseUintLoop cs 0

/-- Standard library `strconv.ParseInt(s, 10, 64)`.  After a range error of
`ParseUint` the unsigned value is `maxVal = 2^64 - 1`, which the cutoff tests
below turn into a range error again. -/
def parseInt (s : String) : Parsed Int :=
  match s.toList with
  | [] => Parsed.err NumError.errSyntax
  | c :: rest =>
    let p : Bool × List Char :=
      if c = '+' then (false, rest) else if c = '-' then (true, rest) else (false, c :: rest)
    let neg := p.1
    match parseUint p.2 with
    | Parsed.err NumError.errSyntax => Parsed.err NumError.errSyntax
    | r =>
      let un : Nat := match r with
        | Parsed.ok n => n
        | Parsed.err _ => 2 ^ 64 - 1
      let cutoff : Nat := 2 ^ 63
      if !neg && decide (un ≥ cutoff) then Parsed.err NumError.errRange
      else if neg && decide (un > cutoff) then Parsed.err NumError.errRange
      else Parsed.ok (if neg then -(un : Int) else (un : Int))

/-- The part of `*http.Request` the handler looks at.  `header` maps a
canonical header name to its values; `body` holds the bytes `r.Body` can
deliver and `bodyFails` says whether reading past them reports an I/O error
(rather than end of file). -/
structure Request where
  method : String
  header : String → List String
  body : List Nat
  bodyFails : Bool

/-- Standard library `Header.Get`: the first value of the key, `""` when there is none. -/
def headerGet (h : String → List String) (key : String) : String :=
  match h key with
  | [] => ""
  | v :: _ => v

/-- What the handler did: the status written, the text passed to
`http.Error`, whether `io.ReadAll` ran on the (limited) body, and the byte
count printed by `"Received %d bytes from client"`. -/
structure Response where
  status : Nat
  message : String
  bodyRead : Bool
  received : Option Nat
  deriving DecidableEq, Repr

/-- Standard library `io.ReadAll(io.LimitReader(body, n))`: the bytes read, or
`none` on a read error. -/
def readAllLimited (body : List Nat) (bodyFails : Bool) (n : Int) : Option (List Nat) :=
  if n ≤ 0 then some []
  else if n.toNat ≤ body.length then some (body.take n.toNat)
  else if bodyFails then none
  else some body

/-- The handler registered for `/upload` in the server's `main`. -/
def uploadHandler (r : Request) : Response :=
  if r.method ≠ "POST" then
    { status := 405, message := "Invalid request method", bodyRead := false, received := none }
  else
    let contentLengthStr := headerGet r.header "Content-Length"
    if contentLengthStr = "" then
      { status := 400, message := "Content-Length header is missing", bodyRead := false,
        received := none }
    else
      match parseInt contentLengthStr with
      | Parsed.err _ =>
        { status := 400, message := "Invalid Content-Length header", bodyRead := false,
          received := none }
      | Parsed.ok contentLength =>
        if contentLength > maxUploadSize then
          { status := 413, message := "File size exceeds the maximum limit", bodyRead := false,
            received := none }
        else
          match readAllLimited r.body r.bodyFails contentLength with
          | none =>
            { status := 500, message := "Failed to read data", bodyRead := true,
              received := none }
          | some data =>
            { status := 200, message := "", bodyRead := true, received := some data.length }

/-- Value of a non-empty string of decimal digits; `none` for any other string. -/
def decimalDigits (cs : List Char) : Option Nat :=
  if cs ≠ [] ∧ cs.all (fun c => decide (48 ≤ c.toNat ∧ c.toNat ≤ 57)) = true then
    some (cs.foldl (fun n c => 10 * n + (c.toNat - 48)) 0)
  else none

/-- The integer written by a header value in decimal: an optional sign
followed by one or more decimal digits.  `none` for every other string. -/
def decimalInteger (s : String) : Option Int :=
  match s.toList with
  | [] => none
  | c :: rest =>
    if c = '+' then Option.map (fun n : Nat => (n : Int)) (decimalDigits rest)
    else if c = '-' then Option.map (fun n : Nat => -(n : Int)) (decimalDigits rest)
    else Option.map (fun n : Nat => (n : Int)) (decimalDigits (c :: rest))

/-- A POST request to `/upload` with the given `Content-Length` value and an empty body. -/
def postWithLength (v : String) : Request :=
  { method := "POST",
    header := fun k => if k = "Content-Length" then [v] else [],
    body := [], bodyFails := false }

/-- A POST request to `/upload` without a `Content-Length` header. -/
def postWithoutLength : Request :=
  { method := "POST", header := (fun _ => []), body := [1, 2, 3], bodyFails := false }

/-! ## `client/client.go`: the synchronized parallel runner -/

/-- The two runners: `parallelDownload` and `parallelUpload`. -/
inductive Direction where
  | download
  | upload
  deriving DecidableEq, Repr

/-- What the transfer call of one worker returns: an error (`err != nil`) or a
response with a status code. -/
inductive Outcome where
  | connError
  | response (statusCode : Nat)
  deriving DecidableEq, Repr

/-- Control point of a worker goroutine. -/
inductive WorkerPc where
  /-- Spawned, at `<-startSignal`. -/
  | waiting
  /-- Past `<-startSignal`, about to call `http.Get` / `http.Post`. -/
  | released
  /-- The transfer call has been issued and has not returned. -/
  | transferring
  /-- Returned; the deferred `wg.Done()` has run. -/
  | done
  deriving DecidableEq, Repr

/-- Control point of the goroutine that runs `parallelDownload` / `parallelUpload`. -/
inductive MainPc where
  /-- At `start := time.Now()`. -/
  | entry
  /-- At `data := bytes.Repeat(...)` (`parallelUpload` only). -/
  | alloc
  /-- At the `for` loop; after it, at `close(startSignal)`. -/
  | loop
  /-- At `wg.Wait()`. -/
  | wait
  /-- At `duration := time.Since(start).Seconds()`. -/
  | since
  /-- The function has returned. -/
  | returned
  deriving DecidableEq, Repr

/-- Instrumentation of the statements of the runner goroutine. -/
inductive MainEvent where
  | recordStart
  | allocPayload
  | spawn (k : Nat)
  | releaseGate
  | joined
  | recordEnd
  deriving DecidableEq, Repr

/-- A line printed by a worker: `"Error:", err` or `"Error: HTTP Status %d"`. -/
inductive ErrLine where
  | error
  | httpStatus (statusCode : Nat)
  deriving DecidableEq, Repr

/-- State of one call of a runner.  `now` is the wall clock in seconds;
`start`, `i`, `wg`, `duration` are the Go variables; `gateClosed` is the state
of the channel `startSignal`; `events` logs each statement of the runner
goroutine with the clock at which it ran. -/
structure RunnerState where
  now : ℚ
  pc : MainPc
  start : ℚ
  i : Nat
  wg : Int
  gateClosed : Bool
  workers : List WorkerPc
  duration : ℚ
  result : Option ℚ
  events : List (ℚ × MainEvent)
  output : List ErrLine

/-- State at the call, with the clock at `t0`. -/
def RunnerState.init (t0 : ℚ) : RunnerState :=
  { now := t0, pc := MainPc.entry, start := 0, i := 0, wg := 0, gateClosed := false,
    workers := [], duration := 0, result := none, events := [], output := [] }

/-- The return expression of both runners, from the argument `threads` and the
variable `duration`. -/
def throughput (threads : Int) (duration : ℚ) : ℚ :=
  let totalData : ℚ := ((dataSizeMB * 1024 * 1024 * 8 : Nat) : ℚ) * (threads : ℚ)
  totalData / (duration * 1024 * 1024)

/-- One statement of the runner goroutine.  `none`: the goroutine is blocked
(`wg.Wait()` with a positive counter) or has returned. -/
def stepMain (dir : Direction) (threads : Int) (s : RunnerState) : Option RunnerState :=
  match s.pc with
  | MainPc.entry =>
    some { s with
      start := s.now
      pc := (match dir with
        | Direction.download => MainPc.loop
        | Direction.upload => MainPc.alloc)
      events := s.events ++ [(s.now, MainEvent.recordStart)] }
  | MainPc.alloc =>
    some { s with pc := MainPc.loop, events := s.events ++ [(s.now, MainEvent.allocPayload)] }
  | MainPc.loop =>
    if (s.i : Int) < threads then
      some { s with
        wg := s.wg + 1
        workers := s.workers ++ [WorkerPc.waiting]
        i := s.i + 1
        events := s.events ++ [(s.now, MainEvent.spawn s.i)] }
    else if s.gateClosed then none
    else
      some { s with
        gateClosed := true
        pc := MainPc.wait
        events := s.events ++ [(s.now, MainEvent.releaseGate)] }
  | MainPc.wait =>
    if s.wg = 0 then
      some { s with pc := MainPc.since, events := s.events ++ [(s.now, MainEvent.joined)] }
    else none
  | MainPc.since =>
    let duration := s.now - s.start
    some { s with
      duration := duration
      result := some (throughput threads duration)
      pc := MainPc.returned
      events := s.events ++ [(s.now, MainEvent.recordEnd)] }
  | MainPc.returned => none

/-- Lines a worker prints for the outcome of its transfer call. -/
def workerOutput : Outcome → List ErrLine
  | Outcome.connError => [ErrLine.error]
  | Outcome.response statusCode =>
    if statusCode ≠ 200 then [ErrLine.httpStatus statusCode] else []

/-- One statement of worker `k`.  `o` is what the transfer call returns; it is
consulted only by the step in which the call returns.  `none`: the worker does
not exist, is blocked at the gate, or has returned. -/
def stepWorker (s : RunnerState) (k : Nat) (o : Outcome) : Option RunnerState :=
  match s.workers[k]? with
  | none => none
  | some WorkerPc.waiting =>
    if s.gateClosed then some { s with workers := s.workers.set k WorkerPc.released }
    else none
  | some WorkerPc.released =>
    some { s with workers := s.workers.set k WorkerPc.transferring }
  | some WorkerPc.transferring =>
    some { s with
      workers := s.workers.set k WorkerPc.done
      wg := s.wg - 1
      output := s.output ++ workerOutput o }
  | some WorkerPc.done => none

/-- A scheduling decision: time passes, the runner goroutine runs one
statement, or worker `k` runs one statement. -/
inductive Action where
  | tick (dt : ℚ)
  | main
  | worker (k : Nat) (o : Outcome)

/-- One step of the system. -/
def step (dir : Direction) (threads : Int) (s : RunnerState) : Action → Option RunnerState
  | Action.tick dt => if 0 ≤ dt then some { s with now := s.now + dt } else none
  | Action.main => stepMain dir threads s
  | Action.worker k o => stepWorker s k o

/-- Execution of a schedule. -/
def run (dir : Direction) (threads : Int) : RunnerState → List Action → Option RunnerState
  | s, [] => some s
  | s, a :: acts =>
    match step dir threads s a with
    | none => none
    | some s' => run dir threads s' acts

/-- Number of `close(startSignal)` executed so far. -/
def releases (s : RunnerState) : Nat :=
  (s.events.filter (fun e => decide (e.2 = MainEvent.releaseGate))).length

/-- Control invariant of the runner. -/
structure GateInv (threads : Int) (s : RunnerState) : Prop where
  len : s.workers.length = s.i
  bound : s.i ≤ threads.toNat
  early : s.pc = MainPc.entry ∨ s.pc = MainPc.alloc → s.i = 0
  full : s.pc = MainPc.wait ∨ s.pc = MainPc.since ∨ s.pc = MainPc.returned →
    s.i = threads.toNat
  gate : s.gateClosed = true ↔
    (s.pc = MainPc.wait ∨ s.pc = MainPc.since ∨ s.pc = MainPc.returned)
  blocked : s.gateClosed = false → ∀ w ∈ s.workers, w = WorkerPc.waiting
  once : releases s = if s.gateClosed then 1 else 0

/-- Payload allocation of `parallelUpload`; `parallelDownload` has none. -/
def allocPart : Direction → List MainEvent
  | Direction.download => []
  | Direction.upload => [MainEvent.allocPayload]

/-- Statements of the runner goroutine up to (not including) the release of
the gate, after `i` loop iterations. -/
def prologue (dir : Direction) (i : Nat) : List MainEvent :=
  [MainEvent.recordStart] ++ allocPart dir ++ (List.range i).map MainEvent.spawn

/-- The statements the runner goroutine has executed when it is at a given point. -/
def progress (dir : Direction) (pc : MainPc) (i : Nat) : List MainEvent :=
  match pc with
  | MainPc.entry => []
  | MainPc.alloc => [MainEvent.recordStart]
  | MainPc.loop => prologue dir i
  | MainPc.wait => prologue dir i ++ [MainEvent.releaseGate]
  | MainPc.since => prologue dir i ++ [MainEvent.releaseGate, MainEvent.joined]
  | MainPc.returned =>
    prologue dir i ++ [MainEvent.releaseGate, MainEvent.joined, MainEvent.recordEnd]

/-- Number of workers that have not returned. -/
def pending (ws : List WorkerPc) : Nat :=
  ws.countP (fun w => decide (w ≠ WorkerPc.done))

/-- Timing and join invariant of the runner. -/
structure RunInv (dir : Direction) (threads : Int) (s : RunnerState) : Prop where
  ev : s.events.map Prod.snd = progress dir s.pc s.i
  allocDir : s.pc = MainPc.alloc → dir = Direction.upload
  early : s.pc = MainPc.entry ∨ s.pc = MainPc.alloc → s.i = 0
  startEv : s.pc ≠ MainPc.entry → s.events.head? = some (s.start, MainEvent.recordStart)
  chrono : (s.events.map Prod.fst).Sorted (· ≤ ·)
  upto : ∀ e ∈ s.events, e.1 ≤ s.now
  since : ∀ e ∈ s.events, s.start ≤ e.1
  startLe : s.pc ≠ MainPc.entry → s.start ≤ s.now
  wgCount : s.wg = (pending s.workers : Int)
  allDone : s.pc = MainPc.since ∨ s.pc = MainPc.returned → ∀ w ∈ s.workers, w = WorkerPc.done
  res : s.pc = MainPc.returned →
    s.result = some (throughput threads s.duration) ∧
    s.events.getLast? = some (s.start + s.duration, MainEvent.recordEnd) ∧
    ∀ e ∈ s.events, e.1 ≤ s.start + s.duration

/-- Steps of the runner goroutine alone. -/
def mainSteps (n : Nat) : List Action := List.replicate n Action.main

/-- Workers `k0, ..., k0 + m - 1` pass the gate and issue their transfer call. -/
def gateSteps : Nat → Nat → List Action
  | _, 0 => []
  | k0, m + 1 =>
    Action.worker k0 Outcome.connError :: Action.worker k0 Outcome.connError ::
      gateSteps (k0 + 1) m

/-- The transfer calls of workers `k0, k0 + 1, ...` return with the given outcomes. -/
def returnSteps : Nat → List Outcome → List Action
  | _, [] => []
  | k0, o :: os => Action.worker k0 o :: returnSteps (k0 + 1) os

/-- A schedule in which every worker is spawned, the gate opens, every worker
issues its call, `d` seconds pass, the calls return with outcomes `os` and the
runner goroutine returns. -/
def schedule (dir : Direction) (threads : Int) (os : List Outcome) (d : ℚ) : List Action :=
  mainSteps (match dir with
    | Direction.download => 1
    | Direction.upload => 2)
  ++ mainSteps threads.toNat ++ [Action.main]
  ++ gateSteps 0 threads.toNat
  ++ [Action.tick d]
  ++ returnSteps 0 os
  ++ [Action.main, Action.main]

/-- Lines printed by the workers for a list of outcomes. -/
def outputs : List Outcome → List ErrLine
  | [] => []
  | o :: os => workerOutput o ++ outputs os

/-- A schedule of `parallelDownload` with one worker in which one second
passes between the first statement and the spawn, and one second between the
issue of the transfer call and its return. -/
def skewed : List Action :=
  [Action.main, Action.tick 1, Action.main, Action.main,
   Action.worker 0 Outcome.connError, Action.worker 0 Outcome.connError, Action.tick 1,
   Action.worker 0 Outcome.connError, Action.main, Action.main]

/-- The state the schedule `skewed` ends in. -/
def skewedFinal : RunnerState :=
  { now := 2, pc := MainPc.returned, start := 0, i := 1, wg := 0, gateClosed := true,
    workers := [WorkerPc.done], duration := 2, result := some 40,
    events := [(0, MainEvent.recordStart), (1, MainEvent.spawn 0), (1, MainEvent.releaseGate),
      (2, MainEvent.joined), (2, MainEvent.recordEnd)],
    output := [ErrLine.error] }

/-- A schedule of `parallelDownload` with two workers, stopped when worker 0
has issued its transfer call and worker 1 has passed the gate. -/
def gateDemo : List Action :=
  [Action.main, Action.main, Action.main, Action.main,
   Action.worker 0 Outcome.connError, Action.worker 1 Outcome.connError,
   Action.worker 0 Outcome.connError]

/-- The state the schedule `gateDemo` ends in. -/
def gateDemoState : RunnerState :=
  { now := 0, pc := MainPc.wait, start := 0, i := 2, wg := 2, gateClosed := true,
    workers := [WorkerPc.transferring, WorkerPc.released], duration := 0, result := none,
    events := [(0, MainEvent.recordStart), (0, MainEvent.spawn 0), (0, MainEvent.spawn 1),
      (0, MainEvent.releaseGate)],
    output := [] }

/-! ## Statistics: lemmas -/

theorem foldl_add_eq_sum (speeds : List ℚ) :
    speeds.foldl (fun total speed => total + speed) 0 = speeds.sum := by
  rw [List.sum_eq_foldl]

theorem sortFloat64s_sorted (speeds : List ℚ) : (sortFloat64s speeds).Sorted (· ≤ ·) :=
  List.sorted_insertionSort (· ≤ ·) speeds

theorem sortFloat64s_perm (speeds : List ℚ) : (sortFloat64s speeds).Perm speeds :=
  List.perm_insertionSort (· ≤ ·) speeds

theorem sortFloat64s_length (speeds : List ℚ) : (sortFloat64s speeds).length = speeds.length :=
  (sortFloat64s_perm speeds).length_eq

/-- The ascending arrangement of a list is unique. -/
theorem sortFloat64s_unique (speeds s : List ℚ) (hs : s.Sorted (· ≤ ·)) (hp : s.Perm speeds) :
    sortFloat64s speeds = s :=
  List.eq_of_perm_of_sorted ((sortFloat64s_perm speeds).trans hp.symm)
    (sortFloat64s_sorted speeds) hs

theorem sortFloat64s_congr (l₁ l₂ : List ℚ) (h : l₁.Perm l₂) :
    sortFloat64s l₁ = sortFloat64s l₂ :=
  sortFloat64s_unique l₁ (sortFloat64s l₂) (sortFloat64s_sorted l₂)
    ((sortFloat64s_perm l₂).trans h.symm)

theorem calculateAverage_eq (speeds : List ℚ) :
    calculateAverage speeds = if speeds = [] then 0 else speeds.sum / (speeds.length : ℚ) := by
  unfold calculateAverage
  by_cases h : speeds = []
  · simp [h]
  · have hl : speeds.length ≠ 0 := fun hl => h (List.length_eq_zero.mp hl)
    simp only [hl, h, if_false, foldl_add_eq_sum]

theorem calculateAverage_congr (l₁ l₂ : List ℚ) (h : l₁.Perm l₂) :
    calculateAverage l₁ = calculateAverage l₂ := by
  rw [calculateAverage_eq, calculateAverage_eq, h.sum_eq, h.length_eq]
  by_cases h2 : l₂ = []
  · have h1 : l₁ = [] := by
      subst h2
      exact List.Perm.eq_nil h
    simp [h1, h2]
  · have h1 : l₁ ≠ [] := by
      intro h1
      subst h1
      exact h2 (List.Perm.eq_nil h.symm)
    simp [h1, h2]

theorem calculateMedian_congr (l₁ l₂ : List ℚ) (h : l₁.Perm l₂) :
    calculateMedian l₁ = calculateMedian l₂ := by
  unfold calculateMedian
  rw [sortFloat64s_congr l₁ l₂ h, h.length_eq]
  by_cases hl : l₂.length = 0
  · have h2 : l₂ = [] := List.length_eq_zero.mp hl
    subst h2
    have h1 : l₁ = [] := List.Perm.eq_nil h
    subst h1
    rfl
  · simp [hl]

/-- The slice handed to `calculateMedian` holds its ascending arrangement
when the function returns. -/
theorem calculateMedian_slice (speeds : List ℚ) :
    (calculateMedian speeds).2 = sortFloat64s speeds := by
  unfold calculateMedian
  by_cases hl : speeds.length = 0
  · have h : speeds = [] := List.length_eq_zero.mp hl
    subst h
    rfl
  · simp only [hl, if_false]
    split <;> rfl

/-! ## Measurement loop: lemmas -/

theorem worldAfter_shift {σ : Type} (runner : σ → ℚ × σ) (w : σ) (i : Nat) :
    worldAfter runner (runner w).2 i = worldAfter runner w (i + 1) := by
  induction i with
  | zero => rfl
  | succ i ih => simp only [worldAfter, ih]

theorem nthSample_shift {σ : Type} (runner : σ → ℚ × σ) (w : σ) (i : Nat) :
    nthSample runner (runner w).2 i = nthSample runner w (i + 1) := by
  unfold nthSample
  rw [worldAfter_shift]

/-- Invariant of the measurement loop: the slice keeps its length, the cells
below `i` are left alone, and cell `i + j` receives the sample of call `j`. -/
theorem measureLoop_spec {σ : Type} (runner : σ → ℚ × σ) (k : Nat) :
    ∀ (i : Nat) (speeds : List ℚ) (w : σ) (out : List Line), speeds.length = i + k →
      (measureLoop runner k i speeds w out).1.length = i + k ∧
      (∀ j, j < i → (measureLoop runner k i speeds w out).1[j]? = speeds[j]?) ∧
      (∀ j, j < k →
        (measureLoop runner k i speeds w out).1[i + j]? = some (nthSample runner w j)) := by
  induction k with
  | zero =>
    intro i speeds w out hlen
    refine ⟨by simpa [measureLoop] using hlen, fun j _ => rfl, fun j hj => absurd hj (by omega)⟩
  | succ k ih =>
    intro i speeds w out hlen
    simp only [measureLoop]
    have hlen2 : (speeds.set i (runner w).1).length = (i + 1) + k := by
      rw [List.length_set]; omega
    obtain ⟨h1, h2, h3⟩ := ih (i + 1) (speeds.set i (runner w).1) (runner w).2
      (out ++ [Line.measurement (i + 1) ((speeds.set i (runner w).1).getD i 0)]) hlen2
    refine ⟨by rw [h1]; omega, ?_, ?_⟩
    · intro j hj
      rw [h2 j (by omega), List.getElem?_set_ne (by omega)]
    · intro j hj
      cases j with
      | zero =>
        simp only [Nat.add_zero]
        rw [h2 i (by omega), List.getElem?_set_eq_of_lt _ (by omega)]
        rfl
      | succ j =>
        have := h3 j (by omega)
        rw [nthSample_shift] at this
        rw [← this]
        congr 1
        omega

/-! ## Statistics and measurement loop: claims -/

/-- Claim C1: on the samples `[3, 1, 2]`, `analyzeSpeeds` (through `calculateMedian`)
leaves the caller's slice as `[1, 2, 3]`: the elements are no longer in the
positions they had before the call.  In `main` the final report then lists
the five samples in ascending order under the labels `Measurement 1..5`,
while the loop printed them under the same labels in call order. -/
theorem analyzeSpeeds_reorders_slice :
    (analyzeSpeeds [3, 1, 2]).2 = [1, 2, 3] ∧ (analyzeSpeeds [3, 1, 2]).2 ≠ [3, 1, 2] ∧
    (calculateMedian [3, 1, 2]).2 ≠ [3, 1, 2] ∧
    (campaign "Download" replay [3, 1, 2, 5, 4]).2 =
      [Line.measuring "Download",
        Line.measurement 1 3, Line.measurement 2 1, Line.measurement 3 2,
        Line.measurement 4 5, Line.measurement 5 4,
        Line.header "Download",
        Line.measurement 1 1, Line.measurement 2 2, Line.measurement 3 3,
        Line.measurement 4 4, Line.measurement 5 5,
        Line.average 3, Line.median 3, Line.footer] := by
  refine ⟨by decide, by decide, by decide, ?_⟩
  norm_num [campaign, collect, measureLoop, numMeasurements, replay, analyzeSpeeds,
    calculateAverage, calculateMedian, sortFloat64s, displayResults, List.enum, List.enumFrom,
    List.replicate, List.set]

/-- Claim C2: `calculateMedian` returns 0 on the empty list; otherwise, with `s` the
ascending sort of the list and `n` its length, it returns `s[n/2]` when `n` is
odd and `(s[n/2 - 1] + s[n/2]) / 2` when `n` is even.  The median of `[x]` is `x`. -/
theorem calculateMedian_spec (speeds s : List ℚ) (hs : s.Sorted (· ≤ ·)) (hp : s.Perm speeds) :
    (speeds = [] → (calculateMedian speeds).1 = 0) ∧
    (speeds ≠ [] → speeds.length % 2 = 1 →
      s[speeds.length / 2]? = some (calculateMedian speeds).1) ∧
    (speeds ≠ [] → speeds.length % 2 = 0 →
      ∃ a b, s[speeds.length / 2 - 1]? = some a ∧ s[speeds.length / 2]? = some b ∧
        (calculateMedian speeds).1 = (a + b) / 2) ∧
    (∀ x : ℚ, (calculateMedian [x]).1 = x) := by
  have hsort : sortFloat64s speeds = s := sortFloat64s_unique speeds s hs hp
  have hlen : s.length = speeds.length := hp.length_eq
  refine ⟨?_, ?_, ?_, ?_⟩
  · intro h
    subst h
    rfl
  · intro hne hodd
    have hl : speeds.length ≠ 0 := fun hl => hne (List.length_eq_zero.mp hl)
    have hmid : speeds.length / 2 < s.length := by omega
    unfold calculateMedian
    simp only [hl, if_false, hsort, hlen, hodd]
    rw [List.getElem?_eq_getElem hmid, List.getD_eq_getElem _ _ hmid]
    simp
  · intro hne heven
    have hl : speeds.length ≠ 0 := fun hl => hne (List.length_eq_zero.mp hl)
    have hmid : speeds.length / 2 < s.length := by omega
    have hmid1 : speeds.length / 2 - 1 < s.length := by omega
    refine ⟨s.getD (speeds.length / 2 - 1) 0, s.getD (speeds.length / 2) 0, ?_, ?_, ?_⟩
    · rw [List.getElem?_eq_getElem hmid1, List.getD_eq_getElem _ _ hmid1]
    · rw [List.getElem?_eq_getElem hmid, List.getD_eq_getElem _ _ hmid]
    · unfold calculateMedian
      simp only [hl, if_false, hsort, hlen, heven, if_true]
  · intro x
    simp [calculateMedian, sortFloat64s]

/-- Witness of claim C2 on the samples `[3, 1, 2, 4]`, whose ascending sort is `[1, 2, 3, 4]`. -/
theorem calculateMedian_spec_witness :
    ([1, 2, 3, 4] : List ℚ).Sorted (· ≤ ·) ∧ ([1, 2, 3, 4] : List ℚ).Perm [3, 1, 2, 4] ∧
    (∃ a b, ([1, 2, 3, 4] : List ℚ)[([3, 1, 2, 4] : List ℚ).length / 2 - 1]? = some a ∧
      ([1, 2, 3, 4] : List ℚ)[([3, 1, 2, 4] : List ℚ).length / 2]? = some b ∧
      (calculateMedian [3, 1, 2, 4]).1 = (a + b) / 2) :=
  ⟨by decide, by decide,
    (calculateMedian_spec [3, 1, 2, 4] [1, 2, 3, 4] (by decide) (by decide)).2.2.1
      (by decide) (by decide)⟩

/-- Claim C4: `calculateAverage` returns 0 on the empty list and otherwise the sum of
the samples divided by their count; in particular `x` for `[x]` and
`(a + b) / 2` for `[a, b]`. -/
theorem calculateAverage_spec (speeds : List ℚ) (x a b : ℚ) :
    calculateAverage speeds = (if speeds = [] then 0 else speeds.sum / (speeds.length : ℚ)) ∧
    calculateAverage [] = 0 ∧ calculateAverage [x] = x ∧ calculateAverage [a, b] = (a + b) / 2 := by
  refine ⟨calculateAverage_eq speeds, ?_, ?_, ?_⟩
  · simp [calculateAverage]
  · simp [calculateAverage]
  · simp [calculateAverage]

/-- Claim C5: `analyzeSpeeds` returns the same `(average, median)` pair on a list and
on each of its permutations; every ordering of `[1,2,3,4,5]` gives `(3, 3)` and
every ordering of `[1,2,3,4]` gives `(5/2, 5/2)`. -/
theorem analyzeSpeeds_perm (l₁ l₂ : List ℚ) (h : l₁.Perm l₂) :
    (analyzeSpeeds l₁).1 = (analyzeSpeeds l₂).1 ∧
    (l₂ = [1, 2, 3, 4, 5] → (analyzeSpeeds l₁).1 = (3, 3)) ∧
    (l₂ = [1, 2, 3, 4] → (analyzeSpeeds l₁).1 = (5 / 2, 5 / 2)) := by
  have key : (analyzeSpeeds l₁).1 = (analyzeSpeeds l₂).1 := by
    unfold analyzeSpeeds
    simp only [calculateAverage_congr l₁ l₂ h, calculateMedian_congr l₁ l₂ h]
  refine ⟨key, ?_, ?_⟩
  · intro h2
    rw [key, h2]
    norm_num [analyzeSpeeds, calculateAverage, calculateMedian, sortFloat64s]
  · intro h2
    rw [key, h2]
    norm_num [analyzeSpeeds, calculateAverage, calculateMedian, sortFloat64s]

/-- Witness of claim C5 on the ordering `[5, 3, 1, 4, 2]` of `[1, 2, 3, 4, 5]`. -/
theorem analyzeSpeeds_perm_witness :
    ([5, 3, 1, 4, 2] : List ℚ).Perm [1, 2, 3, 4, 5] ∧
    (analyzeSpeeds [5, 3, 1, 4, 2]).1 = (analyzeSpeeds [1, 2, 3, 4, 5]).1 ∧
    (analyzeSpeeds [5, 3, 1, 4, 2]).1 = (3, 3) :=
  ⟨by decide, (analyzeSpeeds_perm [5, 3, 1, 4, 2] [1, 2, 3, 4, 5] (by decide)).1,
    (analyzeSpeeds_perm [5, 3, 1, 4, 2] [1, 2, 3, 4, 5] (by decide)).2.1 rfl⟩

/-- Claim C7: for every number of rounds (in particular every `rounds ≥ 1`) the
measurement loop yields a series of exactly `rounds` elements, and element `i`
is the sample returned by invocation `i` of the runner, in call order. -/
theorem collect_series {σ : Type} (runner : σ → ℚ × σ) (rounds : Nat) (w : σ) :
    (collect runner rounds w).1.length = rounds ∧
    ∀ i, i < rounds → (collect runner rounds w).1[i]? = some (nthSample runner w i) := by
  have h := measureLoop_spec runner rounds 0 (List.replicate rounds 0) w [] (by simp)
  refine ⟨by simpa [collect] using h.1, ?_⟩
  intro i hi
  have := h.2.2 i hi
  simpa [collect] using this

/-! ## Upload handler: lemmas and claims -/

theorem foldl_decStep_ge (cs : List Char) (n : Nat) :
    n ≤ cs.foldl (fun n c => 10 * n + (c.toNat - 48)) n := by
  induction cs generalizing n with
  | nil => exact Nat.le_refl n
  | cons c cs ih =>
    simp only [List.foldl_cons]
    exact Nat.le_trans (by omega) (ih _)

theorem parseUintLoop_digits (cs : List Char) :
    ∀ n : Nat, (∀ c ∈ cs, 48 ≤ c.toNat ∧ c.toNat ≤ 57) → n < 2 ^ 64 →
      parseUintLoop cs n =
        if cs.foldl (fun n c => 10 * n + (c.toNat - 48)) n < 2 ^ 64
        then Parsed.ok (cs.foldl (fun n c => 10 * n + (c.toNat - 48)) n)
        else Parsed.err NumError.errRange := by
  induction cs with
  | nil =>
    intro n _ hn
    simp only [parseUintLoop, List.foldl_nil, hn, if_true]
  | cons c cs ih =>
    intro n hall hn
    have hc : 48 ≤ c.toNat ∧ c.toNat ≤ 57 := hall c (List.mem_cons_self c cs)
    have hrest : ∀ c' ∈ cs, 48 ≤ c'.toNat ∧ c'.toNat ≤ 57 :=
      fun c' h => hall c' (List.mem_cons_of_mem c h)
    have hge := foldl_decStep_ge cs (10 * n + (c.toNat - 48))
    have hd : ¬ (c.toNat - 48 ≥ 10) := by omega
    simp only [parseUintLoop, List.foldl_cons, hc, and_self, if_true, hd, if_false]
    norm_num at hn hge ⊢
    by_cases hcut : 1844674407370955162 ≤ n
    · rw [if_pos hcut, if_neg (by omega)]
    · rw [if_neg hcut]
      have hm : n * 10 % 18446744073709551616 = n * 10 := Nat.mod_eq_of_lt (by omega)
      rw [hm]
      by_cases hov : n * 10 + (c.toNat - 48) < 18446744073709551616
      · have hm1 : (n * 10 + (c.toNat - 48)) % 18446744073709551616 = n * 10 + (c.toNat - 48) :=
          Nat.mod_eq_of_lt hov
        rw [hm1, if_neg (by omega)]
        have := ih (n * 10 + (c.toNat - 48)) hrest (by norm_num; exact hov)
        norm_num at this
        rw [this, Nat.mul_comm n 10]
      · rw [if_pos (by omega), if_neg (by omega)]

theorem parseUintLoop_nondigit (cs : List Char) :
    ∀ n : Nat, (∃ c ∈ cs, ¬ (48 ≤ c.toNat ∧ c.toNat ≤ 57)) →
      ∃ e, parseUintLoop cs n = Parsed.err e := by
  induction cs with
  | nil =>
    intro n h
    obtain ⟨c, hc, _⟩ := h
    cases hc
  | cons c cs ih =>
    intro n h
    by_cases hc : 48 ≤ c.toNat ∧ c.toNat ≤ 57
    · have hrest : ∃ c' ∈ cs, ¬ (48 ≤ c'.toNat ∧ c'.toNat ≤ 57) := by
        obtain ⟨c', hmem, hnd⟩ := h
        rcases List.mem_cons.mp hmem with rfl | hmem
        · exact absurd hc hnd
        · exact ⟨c', hmem, hnd⟩
      simp only [parseUintLoop, hc, and_self, if_true]
      split_ifs
      · exact ⟨_, rfl⟩
      · exact ⟨_, rfl⟩
      · exact ⟨_, rfl⟩
      · exact ih _ hrest
    · simp only [parseUintLoop, hc, if_false]
      split_ifs
      · exact ⟨_, rfl⟩
      · omega
      · omega
      · omega
      · exact ⟨_, rfl⟩

theorem parseUint_of_decimalDigits_some (cs : List Char) (v : Nat)
    (h : decimalDigits cs = some v) :
    parseUint cs = if v < 2 ^ 64 then Parsed.ok v else Parsed.err NumError.errRange := by
  unfold decimalDigits at h
  split_ifs at h with hd
  obtain ⟨hne, hall⟩ := hd
  have hv : cs.foldl (fun n c => 10 * n + (c.toNat - 48)) 0 = v := Option.some.inj h
  have hall2 : ∀ c ∈ cs, 48 ≤ c.toNat ∧ c.toNat ≤ 57 := by
    intro c hc
    have := List.all_eq_true.mp hall c hc
    simpa using this
  unfold parseUint
  rw [if_neg hne, parseUintLoop_digits cs 0 hall2 (by norm_num), hv]

theorem parseUint_of_decimalDigits_none (cs : List Char) (h : decimalDigits cs = none) :
    ∃ e, parseUint cs = Parsed.err e := by
  unfold decimalDigits at h
  split_ifs at h with hd
  unfold parseUint
  by_cases hne : cs = []
  · exact ⟨_, if_pos hne⟩
  · rw [if_neg hne]
    apply parseUintLoop_nondigit
    by_contra hcon
    apply hd
    refine ⟨hne, List.all_eq_true.mpr ?_⟩
    intro c hc
    by_contra hnd
    exact hcon ⟨c, hc, by simpa using hnd⟩

/-- The tail of `parseInt` after the unsigned conversion failed. -/
theorem parseInt_cons_err (s : String) (c : Char) (rest : List Char) (hs : s.toList = c :: rest)
    (h : ∃ e, parseUint (if c = '+' then (false, rest)
      else if c = '-' then (true, rest) else (false, c :: rest)).2 = Parsed.err e) :
    ∃ e, parseInt s = Parsed.err e := by
  obtain ⟨e, he⟩ := h
  unfold parseInt
  rw [hs]
  simp only
  generalize (if c = '+' then (false, rest)
      else if c = '-' then (true, rest) else (false, c :: rest)) = p at he ⊢
  rw [he]
  cases e with
  | errSyntax => exact ⟨_, rfl⟩
  | errRange =>
    cases hneg : p.1
    · exact ⟨NumError.errRange, by simp⟩
    · exact ⟨NumError.errRange, by simp⟩

/-- The tail of `parseInt` after the unsigned conversion succeeded. -/
theorem parseInt_cons_ok (s : String) (c : Char) (rest : List Char) (hs : s.toList = c :: rest)
    (n : Nat)
    (h : parseUint (if c = '+' then (false, rest)
      else if c = '-' then (true, rest) else (false, c :: rest)).2 = Parsed.ok n) :
    parseInt s =
      if (if c = '+' then (false, rest)
          else if c = '-' then (true, rest) else (false, c :: rest)).1 = true
      then (if n ≤ 2 ^ 63 then Parsed.ok (-(n : Int)) else Parsed.err NumError.errRange)
      else (if n < 2 ^ 63 then Parsed.ok (n : Int) else Parsed.err NumError.errRange) := by
  unfold parseInt
  rw [hs]
  simp only
  generalize (if c = '+' then (false, rest)
      else if c = '-' then (true, rest) else (false, c :: rest)) = p at h ⊢
  rw [h]
  cases hneg : p.1
  · simp
    split_ifs <;> first | rfl | (exfalso; omega)
  · simp
    split_ifs <;> first | rfl | (exfalso; omega)

theorem parseInt_of_decimalInteger_none (s : String) (h : decimalInteger s = none) :
    ∃ e, parseInt s = Parsed.err e := by
  unfold decimalInteger at h
  cases hs : s.toList with
  | nil => exact ⟨NumError.errSyntax, by unfold parseInt; rw [hs]⟩
  | cons c rest =>
    rw [hs] at h
    simp only at h
    apply parseInt_cons_err s c rest hs
    by_cases hp : c = '+'
    · rw [if_pos hp] at h
      rw [if_pos hp]
      exact parseUint_of_decimalDigits_none rest (by simpa using h)
    · by_cases hm : c = '-'
      · rw [if_neg hp, if_pos hm] at h
        rw [if_neg hp, if_pos hm]
        exact parseUint_of_decimalDigits_none rest (by simpa using h)
      · rw [if_neg hp, if_neg hm] at h
        rw [if_neg hp, if_neg hm]
        exact parseUint_of_decimalDigits_none (c :: rest) (by simpa using h)

/-- On a decimal numeral `parseInt` returns the value written when it fits
`int64` and an error otherwise. -/
theorem parseInt_of_decimalInteger_some (s : String) (v : Int) (h : decimalInteger s = some v) :
    (-2 ^ 63 ≤ v ∧ v < 2 ^ 63 → parseInt s = Parsed.ok v) ∧
    (¬ (-2 ^ 63 ≤ v ∧ v < 2 ^ 63) → ∃ e, parseInt s = Parsed.err e) := by
  unfold decimalInteger at h
  cases hs : s.toList with
  | nil => rw [hs] at h; cases h
  | cons c rest =>
    rw [hs] at h
    simp only at h
    by_cases hp : c = '+'
    · rw [if_pos hp] at h
      obtain ⟨n, hn, hv⟩ := Option.map_eq_some'.mp h
      have hu := parseUint_of_decimalDigits_some rest n hn
      by_cases h64 : n < 2 ^ 64
      · rw [if_pos h64] at hu
        have := parseInt_cons_ok s c rest hs n (by simpa [hp] using hu)
        rw [if_pos hp] at this
        rw [this]
        subst hv
        constructor
        · intro hr
          rw [if_neg (by simp), if_pos (by omega)]
        · intro hr
          rw [if_neg (by simp), if_neg (by omega)]
          exact ⟨_, rfl⟩
      · rw [if_neg h64] at hu
        have := parseInt_cons_err s c rest hs ⟨_, by simpa [hp] using hu⟩
        subst hv
        exact ⟨fun hr => absurd hr.2 (by omega), fun _ => this⟩
    · by_cases hm : c = '-'
      · rw [if_neg hp, if_pos hm] at h
        obtain ⟨n, hn, hv⟩ := Option.map_eq_some'.mp h
        have hu := parseUint_of_decimalDigits_some rest n hn
        by_cases h64 : n < 2 ^ 64
        · rw [if_pos h64] at hu
          have := parseInt_cons_ok s c rest hs n (by simpa [hp, hm] using hu)
          rw [if_neg hp, if_pos hm] at this
          rw [this]
          subst hv
          constructor
          · intro hr
            rw [if_pos rfl, if_pos (by omega)]
          · intro hr
            rw [if_pos rfl, if_neg (by omega)]
            exact ⟨_, rfl⟩
        · rw [if_neg h64] at hu
          have := parseInt_cons_err s c rest hs ⟨_, by simpa [hp, hm] using hu⟩
          subst hv
          exact ⟨fun hr => absurd hr.1 (by omega), fun _ => this⟩
      · rw [if_neg hp, if_neg hm] at h
        obtain ⟨n, hn, hv⟩ := Option.map_eq_some'.mp h
        have hu := parseUint_of_decimalDigits_some (c :: rest) n hn
        by_cases h64 : n < 2 ^ 64
        · rw [if_pos h64] at hu
          have := parseInt_cons_ok s c rest hs n (by simpa [hp, hm] using hu)
          rw [if_neg hp, if_neg hm] at this
          rw [this]
          subst hv
          constructor
          · intro hr
            rw [if_neg (by simp), if_pos (by omega)]
          · intro hr
            rw [if_neg (by simp), if_neg (by omega)]
            exact ⟨_, rfl⟩
        · rw [if_neg h64] at hu
          have := parseInt_cons_err s c rest hs ⟨_, by simpa [hp, hm] using hu⟩
          subst hv
          exact ⟨fun hr => absurd hr.2 (by omega), fun _ => this⟩

theorem uploadHandler_of_err (r : Request) (hm : r.method = "POST") (e : NumError)
    (he : parseInt (headerGet r.header "Content-Length") = Parsed.err e) :
    (uploadHandler r).status = 400 ∧ (uploadHandler r).bodyRead = false := by
  unfold uploadHandler
  rw [if_neg (by simp [hm])]
  simp only
  split_ifs
  · exact ⟨rfl, rfl⟩
  · rw [he]
    exact ⟨rfl, rfl⟩

theorem uploadHandler_of_ok (r : Request) (hm : r.method = "POST") (v : Int)
    (hne : headerGet r.header "Content-Length" ≠ "")
    (hv : parseInt (headerGet r.header "Content-Length") = Parsed.ok v)
    (hgt : maxUploadSize < v) :
    (uploadHandler r).status = 413 ∧ (uploadHandler r).bodyRead = false := by
  unfold uploadHandler
  rw [if_neg (by simp [hm])]
  simp only
  rw [if_neg hne, hv]
  simp only
  rw [if_pos hgt]
  exact ⟨rfl, rfl⟩

theorem decimalInteger_empty : decimalInteger "" = none := rfl

/-- Claim C6, amended: for every POST request to `/upload` whose `Content-Length`
is a decimal integer `v` greater than `maxUploadSize`, the handler answers 413
when `v` fits `int64` (`v < 2^63`) and 400 when it does not (`strconv.ParseInt`
then reports a range error); in both cases it returns before reading the body. -/
theorem upload_oversize (r : Request) (v : Int) (hm : r.method = "POST")
    (hv : decimalInteger (headerGet r.header "Content-Length") = some v)
    (hgt : maxUploadSize < v) :
    (uploadHandler r).status = (if v < 2 ^ 63 then 413 else 400) ∧
    (uploadHandler r).bodyRead = false := by
  have hne : headerGet r.header "Content-Length" ≠ "" := by
    intro h0
    rw [h0, decimalInteger_empty] at hv
    cases hv
  have hmax : (0 : Int) ≤ maxUploadSize := by decide
  obtain ⟨hin, hout⟩ := parseInt_of_decimalInteger_some _ v hv
  by_cases hr : v < 2 ^ 63
  · rw [if_pos hr]
    exact uploadHandler_of_ok r hm v hne (hin ⟨by omega, hr⟩) hgt
  · rw [if_neg hr]
    obtain ⟨e, he⟩ := hout (fun h => hr h.2)
    exact uploadHandler_of_err r hm e he

/-- Witness of claim C6 (amended): `Content-Length: 104857601`, one byte over the limit. -/
theorem upload_oversize_witness :
    (uploadHandler (postWithLength "104857601")).status = 413 ∧
    (uploadHandler (postWithLength "104857601")).bodyRead = false :=
  upload_oversize (postWithLength "104857601") 104857601 rfl (by decide) (by decide)

/-- Counterexample to claim C6 as stated: `Content-Length: 9223372036854775808`
(`2^63`) is a decimal integer greater than `maxUploadSize`, and the handler
answers 400, not 413. -/
theorem upload_oversize_counterexample :
    ¬ ∀ (r : Request) (v : Int), r.method = "POST" →
      decimalInteger (headerGet r.header "Content-Length") = some v → maxUploadSize < v →
      (uploadHandler r).status = 413 ∧ (uploadHandler r).bodyRead = false := by
  intro h
  have := (h (postWithLength "9223372036854775808") 9223372036854775808 rfl
    (by decide) (by decide)).1
  revert this
  decide

/-- Claim C8: for every POST request to `/upload` whose `Content-Length` header
is missing, empty, or not a decimal integer, the handler answers 400 and
returns before reading the body. -/
theorem upload_bad_length (r : Request) (hm : r.method = "POST")
    (h : r.header "Content-Length" = [] ∨ headerGet r.header "Content-Length" = "" ∨
      decimalInteger (headerGet r.header "Content-Length") = none) :
    (uploadHandler r).status = 400 ∧ (uploadHandler r).bodyRead = false := by
  have hnone : decimalInteger (headerGet r.header "Content-Length") = none := by
    rcases h with h | h | h
    · unfold headerGet
      rw [h]
      rfl
    · rw [h]
      rfl
    · exact h
  obtain ⟨e, he⟩ := parseInt_of_decimalInteger_none _ hnone
  exact uploadHandler_of_err r hm e he

/-- Witness of claim C8: a request without the header, and one with the value `12a`. -/
theorem upload_bad_length_witness :
    ((uploadHandler postWithoutLength).status = 400 ∧
      (uploadHandler postWithoutLength).bodyRead = false) ∧
    ((uploadHandler (postWithLength "12a")).status = 400 ∧
      (uploadHandler (postWithLength "12a")).bodyRead = false) :=
  ⟨upload_bad_length postWithoutLength rfl (Or.inl rfl),
    upload_bad_length (postWithLength "12a") rfl (Or.inr (Or.inr (by decide)))⟩

/-! ## Runner: lemmas and claims -/

theorem gateInv_init (threads : Int) (t0 : ℚ) : GateInv threads (RunnerState.init t0) where
  len := rfl
  bound := Nat.zero_le _
  early := fun _ => rfl
  full := by simp [RunnerState.init]
  gate := by simp [RunnerState.init]
  blocked := by simp [RunnerState.init]
  once := rfl

theorem releases_append (ev : List (ℚ × MainEvent)) (e : ℚ × MainEvent) :
    (List.filter (fun e => decide (e.2 = MainEvent.releaseGate)) (ev ++ [e])).length =
      (List.filter (fun e => decide (e.2 = MainEvent.releaseGate)) ev).length +
        (if e.2 = MainEvent.releaseGate then 1 else 0) := by
  rw [List.filter_append, List.length_append]
  by_cases h : e.2 = MainEvent.releaseGate
  · simp [h]
  · simp [h]

theorem gateInv_stepMain (dir : Direction) (threads : Int) (s s' : RunnerState)
    (h : GateInv threads s) (hs : stepMain dir threads s = some s') : GateInv threads s' := by
  obtain ⟨hlen, hbound, hearly, hfull, hgate, hblocked, honce⟩ := h
  unfold stepMain at hs
  cases hpc : s.pc <;> rw [hpc] at hs <;> simp only at hs
  · -- entry
    have hi : s.i = 0 := hearly (Or.inl hpc)
    have hg : s.gateClosed = false := by
      cases hgc : s.gateClosed
      · rfl
      · have := hgate.mp hgc
        simp [hpc] at this
    cases Option.some.inj hs
    cases dir
    · refine ⟨hlen, hbound, by simp, by simp, by simp [hg], hblocked, ?_⟩
      simp only [releases] at honce ⊢
      rw [releases_append, honce]
      simp
    · refine ⟨hlen, hbound, fun _ => hi, by simp, by simp [hg], hblocked, ?_⟩
      simp only [releases] at honce ⊢
      rw [releases_append, honce]
      simp

  · -- alloc
    have hi : s.i = 0 := hearly (Or.inr hpc)
    have hg : s.gateClosed = false := by
      cases hgc : s.gateClosed
      · rfl
      · have := hgate.mp hgc
        simp [hpc] at this
    cases Option.some.inj hs
    refine ⟨hlen, hbound, by simp, by simp, by simp [hg], hblocked, ?_⟩
    simp only [releases] at honce ⊢
    rw [releases_append, honce]
    simp
  · -- loop
    have hg : s.gateClosed = false := by
      cases hgc : s.gateClosed
      · rfl
      · have := hgate.mp hgc
        simp [hpc] at this
    by_cases hlt : (s.i : Int) < threads
    · rw [if_pos hlt] at hs
      cases Option.some.inj hs
      refine ⟨by simp [hlen], ?_, by simp [hpc], by simp [hpc], by simp [hg, hpc], ?_, ?_⟩
      · show s.i + 1 ≤ threads.toNat
        omega
      · intro _ w hw
        rcases List.mem_append.mp hw with hw | hw
        · exact hblocked hg w hw
        · simpa using hw
      · simp only [releases] at honce ⊢
        rw [releases_append, honce]
        simp
    · rw [if_neg hlt, hg] at hs
      simp only [Bool.false_eq_true, if_false] at hs
      cases Option.some.inj hs
      refine ⟨hlen, hbound, by simp, ?_, by simp, by simp, ?_⟩
      · intro _
        show s.i = threads.toNat
        omega
      · simp only [releases] at honce ⊢
        rw [releases_append, honce, hg]
        simp
  · -- wait
    have hg : s.gateClosed = true := hgate.mpr (Or.inl hpc)
    have hi : s.i = threads.toNat := hfull (Or.inl hpc)
    split_ifs at hs
    cases Option.some.inj hs
    refine ⟨hlen, hbound, by simp, fun _ => hi, by simp [hg], by simp [hg], ?_⟩
    simp only [releases] at honce ⊢
    rw [releases_append, honce]
    simp
  · -- since
    have hg : s.gateClosed = true := hgate.mpr (Or.inr (Or.inl hpc))
    have hi : s.i = threads.toNat := hfull (Or.inr (Or.inl hpc))
    cases Option.some.inj hs
    refine ⟨hlen, hbound, by simp, fun _ => hi, by simp [hg], by simp [hg], ?_⟩
    simp only [releases] at honce ⊢
    rw [releases_append, honce]
    simp
  · -- returned
    cases hs

theorem gateInv_stepWorker (threads : Int) (s s' : RunnerState) (k : Nat) (o : Outcome)
    (h : GateInv threads s) (hs : stepWorker s k o = some s') : GateInv threads s' := by
  obtain ⟨hlen, hbound, hearly, hfull, hgate, hblocked, honce⟩ := h
  unfold stepWorker at hs
  cases hw : s.workers[k]? with
  | none => rw [hw] at hs; cases hs
  | some w =>
    rw [hw] at hs
    have hmem : w ∈ s.workers := List.getElem?_mem hw
    cases w <;> simp only at hs
    · -- waiting
      split_ifs at hs with hg
      cases Option.some.inj hs
      exact ⟨by simp [hlen], hbound, hearly, hfull, hgate, by simp [hg], honce⟩
    · -- released
      have hg : s.gateClosed = true := by
        cases hgc : s.gateClosed
        · cases hblocked hgc _ hmem
        · rfl
      cases Option.some.inj hs
      exact ⟨by simp [hlen], hbound, hearly, hfull, hgate, by simp [hg], honce⟩
    · -- transferring
      have hg : s.gateClosed = true := by
        cases hgc : s.gateClosed
        · cases hblocked hgc _ hmem
        · rfl
      cases Option.some.inj hs
      exact ⟨by simp [hlen], hbound, hearly, hfull, hgate, by simp [hg], honce⟩
    · cases hs

theorem gateInv_step (dir : Direction) (threads : Int) (s s' : RunnerState) (a : Action)
    (h : GateInv threads s) (hs : step dir threads s a = some s') : GateInv threads s' := by
  cases a with
  | tick dt =>
    simp only [step] at hs
    split_ifs at hs
    cases Option.some.inj hs
    obtain ⟨hlen, hbound, hearly, hfull, hgate, hblocked, honce⟩ := h
    exact ⟨hlen, hbound, hearly, hfull, hgate, hblocked, honce⟩
  | main => exact gateInv_stepMain dir threads s s' h hs
  | worker k o => exact gateInv_stepWorker threads s s' k o h hs

theorem gateInv_run (dir : Direction) (threads : Int) (acts : List Action) :
    ∀ s s' : RunnerState, GateInv threads s → run dir threads s acts = some s' →
      GateInv threads s' := by
  induction acts with
  | nil =>
    intro s s' h hs
    cases Option.some.inj hs
    exact h
  | cons a acts ih =>
    intro s s' h hs
    simp only [run] at hs
    cases hstep : step dir threads s a with
    | none => rw [hstep] at hs; cases hs
    | some s1 =>
      rw [hstep] at hs
      exact ih s1 s' (gateInv_step dir threads s s1 a h hstep) hs

theorem runInv_init (dir : Direction) (threads : Int) (t0 : ℚ) :
    RunInv dir threads (RunnerState.init t0) where
  ev := rfl
  allocDir := by simp [RunnerState.init]
  early := fun _ => rfl
  startEv := by simp [RunnerState.init]
  chrono := by simp [RunnerState.init]
  upto := by simp [RunnerState.init]
  since := by simp [RunnerState.init]
  startLe := by simp [RunnerState.init]
  wgCount := rfl
  allDone := by simp [RunnerState.init]
  res := by simp [RunnerState.init]

theorem pending_append_waiting (ws : List WorkerPc) :
    pending (ws ++ [WorkerPc.waiting]) = pending ws + 1 := by
  simp [pending, List.countP_append]

theorem pending_eq_zero (ws : List WorkerPc) (h : pending ws = 0) :
    ∀ w ∈ ws, w = WorkerPc.done := by
  intro w hw
  have := (List.countP_eq_zero.mp h) w hw
  simpa using this

theorem pending_set_same (ws : List WorkerPc) (w w' : WorkerPc)
    (hw : w ≠ WorkerPc.done) (hw' : w' ≠ WorkerPc.done) :
    ∀ k, ws[k]? = some w → pending (ws.set k w') = pending ws := by
  induction ws with
  | nil => intro k h; simp at h
  | cons x xs ih =>
    intro k h
    cases k with
    | zero =>
      simp only [List.getElem?_cons_zero, Option.some.injEq] at h
      subst h
      simp [pending, List.countP_cons, hw, hw']
    | succ k =>
      simp only [List.getElem?_cons_succ] at h
      have := ih k h
      simp only [pending, List.set_cons_succ, List.countP_cons] at this ⊢
      rw [this]

theorem pending_set_done (ws : List WorkerPc) (w : WorkerPc) (hw : w ≠ WorkerPc.done) :
    ∀ k, ws[k]? = some w → pending (ws.set k WorkerPc.done) + 1 = pending ws := by
  induction ws with
  | nil => intro k h; simp at h
  | cons x xs ih =>
    intro k h
    cases k with
    | zero =>
      simp only [List.getElem?_cons_zero, Option.some.injEq] at h
      subst h
      simp [pending, List.countP_cons, hw]
    | succ k =>
      simp only [List.getElem?_cons_succ] at h
      have := ih k h
      simp only [pending, List.set_cons_succ, List.countP_cons] at this ⊢
      omega

theorem sorted_append_now (ts : List ℚ) (now : ℚ) (h : ts.Sorted (· ≤ ·))
    (hup : ∀ t ∈ ts, t ≤ now) : (ts ++ [now]).Sorted (· ≤ ·) := by
  unfold List.Sorted at h ⊢
  rw [List.pairwise_append]
  refine ⟨h, List.pairwise_singleton _ _, ?_⟩
  intro a ha b hb
  rw [List.mem_singleton.mp hb]
  exact hup a ha

theorem prologue_succ (dir : Direction) (i : Nat) :
    prologue dir (i + 1) = prologue dir i ++ [MainEvent.spawn i] := by
  simp [prologue, List.range_succ]

theorem head_append_of_head {α : Type} (l r : List α) (a : α) (h : l.head? = some a) :
    (l ++ r).head? = some a := by
  cases l with
  | nil => cases h
  | cons x xs => simpa using h

theorem chrono_append (ev : List (ℚ × MainEvent)) (now : ℚ) (x : MainEvent)
    (h : (ev.map Prod.fst).Sorted (· ≤ ·)) (hup : ∀ e ∈ ev, e.1 ≤ now) :
    ((ev ++ [(now, x)]).map Prod.fst).Sorted (· ≤ ·) := by
  rw [List.map_append]
  apply sorted_append_now _ _ h
  intro t ht
  obtain ⟨e, he, rfl⟩ := List.mem_map.mp ht
  exact hup e he

theorem upto_append (ev : List (ℚ × MainEvent)) (now : ℚ) (x : MainEvent)
    (hup : ∀ e ∈ ev, e.1 ≤ now) : ∀ e ∈ ev ++ [(now, x)], e.1 ≤ now := by
  intro e he
  rcases List.mem_append.mp he with he | he
  · exact hup e he
  · rw [List.mem_singleton.mp he]

theorem since_append (ev : List (ℚ × MainEvent)) (start now : ℚ) (x : MainEvent)
    (hs : ∀ e ∈ ev, start ≤ e.1) (hle : start ≤ now) :
    ∀ e ∈ ev ++ [(now, x)], start ≤ e.1 := by
  intro e he
  rcases List.mem_append.mp he with he | he
  · exact hs e he
  · rw [List.mem_singleton.mp he]
    exact hle

theorem runInv_stepMain (dir : Direction) (threads : Int) (s s' : RunnerState)
    (h : RunInv dir threads s) (hs : stepMain dir threads s = some s') :
    RunInv dir threads s' := by
  obtain ⟨hev, hdir, hearly, hstart, hchrono, hupto, hsince, hle, hwg, hdone, hres⟩ := h
  unfold stepMain at hs
  cases hpc : s.pc <;> rw [hpc] at hs <;> simp only at hs
  · -- entry
    have hi : s.i = 0 := hearly (Or.inl hpc)
    have hnil : s.events = [] := by
      rw [hpc] at hev
      simpa [progress] using hev
    cases Option.some.inj hs
    cases dir
    · exact ⟨by simp [hnil, hi, progress, prologue, allocPart], by simp, by simp,
        by simp [hnil], by simp [hnil], by simp [hnil], by simp [hnil], by simp, hwg,
        by simp, by simp⟩
    · exact ⟨by simp [hnil, progress], by simp, fun _ => hi,
        by simp [hnil], by simp [hnil], by simp [hnil], by simp [hnil], by simp, hwg,
        by simp, by simp⟩
  · -- alloc
    have hi : s.i = 0 := hearly (Or.inr hpc)
    have hd : dir = Direction.upload := hdir hpc
    have hle2 : s.start ≤ s.now := hle (by simp [hpc])
    cases Option.some.inj hs
    refine ⟨?_, by simp, by simp, ?_, chrono_append _ _ _ hchrono hupto,
      upto_append _ _ _ hupto, since_append _ _ _ _ hsince hle2, fun _ => hle2, hwg,
      by simp, by simp⟩
    · rw [hpc] at hev
      simp [hev, hi, hd, progress, prologue, allocPart]
    · exact fun _ => head_append_of_head _ _ _ (hstart (by simp [hpc]))
  · -- loop
    have hle2 : s.start ≤ s.now := hle (by simp [hpc])
    have hhead := hstart (by simp [hpc])
    rw [hpc] at hev
    by_cases hlt : (s.i : Int) < threads
    · rw [if_pos hlt] at hs
      cases Option.some.inj hs
      refine ⟨?_, by simp [hpc], by simp [hpc], ?_, chrono_append _ _ _ hchrono hupto,
        upto_append _ _ _ hupto, since_append _ _ _ _ hsince hle2, fun _ => hle2, ?_,
        by simp [hpc], by simp [hpc]⟩
      · simp only [hpc, progress, prologue_succ, List.map_append, hev]
        simp [progress]
      · exact fun _ => head_append_of_head _ _ _ hhead
      · show s.wg + 1 = ((pending (s.workers ++ [WorkerPc.waiting]) : Nat) : Int)
        rw [pending_append_waiting, hwg]
        push_cast
        rfl
    · rw [if_neg hlt] at hs
      split_ifs at hs
      cases Option.some.inj hs
      refine ⟨?_, by simp, by simp, ?_, chrono_append _ _ _ hchrono hupto,
        upto_append _ _ _ hupto, since_append _ _ _ _ hsince hle2, fun _ => hle2, hwg,
        by simp, by simp⟩
      · simp [progress, hev]
      · exact fun _ => head_append_of_head _ _ _ hhead
  · -- wait
    have hle2 : s.start ≤ s.now := hle (by simp [hpc])
    have hhead := hstart (by simp [hpc])
    rw [hpc] at hev
    split_ifs at hs with hz
    cases Option.some.inj hs
    refine ⟨?_, by simp, by simp, ?_, chrono_append _ _ _ hchrono hupto,
      upto_append _ _ _ hupto, since_append _ _ _ _ hsince hle2, fun _ => hle2, hwg,
      ?_, by simp⟩
    · simp [progress, hev]
    · exact fun _ => head_append_of_head _ _ _ hhead
    · intro _
      apply pending_eq_zero
      rw [hz] at hwg
      exact_mod_cast hwg.symm
  · -- since
    have hle2 : s.start ≤ s.now := hle (by simp [hpc])
    have hhead := hstart (by simp [hpc])
    have hall := hdone (Or.inl hpc)
    rw [hpc] at hev
    cases Option.some.inj hs
    refine ⟨?_, by simp, by simp, ?_, chrono_append _ _ _ hchrono hupto,
      upto_append _ _ _ hupto, since_append _ _ _ _ hsince hle2, fun _ => hle2, hwg,
      fun _ => hall, ?_⟩
    · simp [progress, hev]
    · exact fun _ => head_append_of_head _ _ _ hhead
    · intro _
      refine ⟨rfl, ?_, ?_⟩
      · simp
      · intro e he
        have := upto_append _ _ MainEvent.recordEnd hupto e he
        simpa using this
  · -- returned
    cases hs

theorem runInv_stepWorker (dir : Direction) (threads : Int) (s s' : RunnerState) (k : Nat)
    (o : Outcome) (h : RunInv dir threads s) (hs : stepWorker s k o = some s') :
    RunInv dir threads s' := by
  obtain ⟨hev, hdir, hearly, hstart, hchrono, hupto, hsince, hle, hwg, hdone, hres⟩ := h
  unfold stepWorker at hs
  cases hw : s.workers[k]? with
  | none => rw [hw] at hs; cases hs
  | some w =>
    rw [hw] at hs
    have hmem : w ∈ s.workers := List.getElem?_mem hw
    cases w <;> simp only at hs
    · -- waiting
      split_ifs at hs with hg
      cases Option.some.inj hs
      refine ⟨hev, hdir, hearly, hstart, hchrono, hupto, hsince, hle, ?_, ?_, hres⟩
      · show s.wg = ((pending (s.workers.set k WorkerPc.released) : Nat) : Int)
        rw [pending_set_same s.workers WorkerPc.waiting WorkerPc.released (by decide)
          (by decide) k hw]
        exact hwg
      · intro hp
        cases hdone hp _ hmem
    · -- released
      cases Option.some.inj hs
      refine ⟨hev, hdir, hearly, hstart, hchrono, hupto, hsince, hle, ?_, ?_, hres⟩
      · show s.wg = ((pending (s.workers.set k WorkerPc.transferring) : Nat) : Int)
        rw [pending_set_same s.workers WorkerPc.released WorkerPc.transferring (by decide)
          (by decide) k hw]
        exact hwg
      · intro hp
        cases hdone hp _ hmem
    · -- transferring
      cases Option.some.inj hs
      refine ⟨hev, hdir, hearly, hstart, hchrono, hupto, hsince, hle, ?_, ?_, hres⟩
      · show s.wg - 1 = ((pending (s.workers.set k WorkerPc.done) : Nat) : Int)
        have := pending_set_done s.workers WorkerPc.transferring (by decide) k hw
        rw [hwg]
        omega
      · intro hp
        cases hdone hp _ hmem
    · cases hs

theorem runInv_step (dir : Direction) (threads : Int) (s s' : RunnerState) (a : Action)
    (h : RunInv dir threads s) (hs : step dir threads s a = some s') :
    RunInv dir threads s' := by
  cases a with
  | tick dt =>
    simp only [step] at hs
    split_ifs at hs with hdt
    cases Option.some.inj hs
    obtain ⟨hev, hdir, hearly, hstart, hchrono, hupto, hsince, hle, hwg, hdone, hres⟩ := h
    refine ⟨hev, hdir, hearly, hstart, hchrono, ?_, hsince, ?_, hwg, hdone, hres⟩
    · intro e he
      show e.1 ≤ s.now + dt
      linarith [hupto e he]
    · intro hp
      show s.start ≤ s.now + dt
      linarith [hle hp]
  | main => exact runInv_stepMain dir threads s s' h hs
  | worker k o => exact runInv_stepWorker dir threads s s' k o h hs

theorem runInv_run (dir : Direction) (threads : Int) (acts : List Action) :
    ∀ s s' : RunnerState, RunInv dir threads s → run dir threads s acts = some s' →
      RunInv dir threads s' := by
  induction acts with
  | nil =>
    intro s s' h hs
    cases Option.some.inj hs
    exact h
  | cons a acts ih =>
    intro s s' h hs
    simp only [run] at hs
    cases hstep : step dir threads s a with
    | none => rw [hstep] at hs; cases hs
    | some s1 =>
      rw [hstep] at hs
      exact ih s1 s' (runInv_step dir threads s s1 a h hstep) hs

theorem run_append (dir : Direction) (threads : Int) (a b : List Action) :
    ∀ s : RunnerState, run dir threads s (a ++ b) =
      (run dir threads s a).bind (fun s' => run dir threads s' b) := by
  induction a with
  | nil => intro s; rfl
  | cons x xs ih =>
    intro s
    simp only [List.cons_append, run]
    cases step dir threads s x with
    | none => rfl
    | some s1 => exact ih s1

theorem run_spawns (dir : Direction) (threads : Int) :
    ∀ (m : Nat) (s : RunnerState), s.pc = MainPc.loop → s.i + m ≤ threads.toNat →
      run dir threads s (mainSteps m) = some { s with
        wg := s.wg + (m : Int)
        workers := s.workers ++ List.replicate m WorkerPc.waiting
        i := s.i + m
        events := s.events ++ (List.range' s.i m).map (fun k => (s.now, MainEvent.spawn k)) } := by
  intro m
  induction m with
  | zero =>
    intro s _ _
    simp [mainSteps, run]
  | succ m ih =>
    intro s hpc hle
    obtain ⟨now, pc, start, i, wg, gc, ws, dur, res, ev, out⟩ := s
    simp only at hpc hle
    subst hpc
    have hlt : (i : Int) < threads := by omega
    simp only [mainSteps, List.replicate_succ, run, step, stepMain, if_pos hlt]
    have := ih ⟨now, MainPc.loop, start, i + 1, wg + 1, gc, ws ++ [WorkerPc.waiting], dur, res,
      ev ++ [(now, MainEvent.spawn i)], out⟩ rfl (by simp only; omega)
    simp only [mainSteps] at this
    rw [this]
    simp only [Option.some.injEq, RunnerState.mk.injEq, true_and]
    refine ⟨by omega, by push_cast; ring, by simp, by simp [List.range'_succ]⟩

theorem getElem_mid_some {α : Type} (pre : List α) (x : α) (rest : List α) :
    (pre ++ x :: rest)[pre.length]? = some x := by
  induction pre with
  | nil => simp
  | cons p pre ih => simpa using ih

theorem set_mid {α : Type} (pre : List α) (x y : α) (rest : List α) :
    (pre ++ x :: rest).set pre.length y = pre ++ y :: rest := by
  induction pre with
  | nil => rfl
  | cons p pre ih => simp [ih]

theorem run_gateSteps (dir : Direction) (threads : Int) :
    ∀ (m : Nat) (pre : List WorkerPc) (s : RunnerState), s.gateClosed = true →
      s.workers = pre ++ List.replicate m WorkerPc.waiting →
      run dir threads s (gateSteps pre.length m) = some { s with
        workers := pre ++ List.replicate m WorkerPc.transferring } := by
  intro m
  induction m with
  | zero =>
    intro pre s _ hw
    obtain ⟨now, pc, start, i, wg, gc, ws, dur, res, ev, out⟩ := s
    simp only at hw
    subst hw
    simp [gateSteps, run]
  | succ m ih =>
    intro pre s hg hw
    obtain ⟨now, pc, start, i, wg, gc, ws, dur, res, ev, out⟩ := s
    simp only at hw hg
    subst hw hg
    simp only [gateSteps, run, step, stepWorker, List.replicate_succ, getElem_mid_some, set_mid,
      if_true]
    have := ih (pre ++ [WorkerPc.transferring])
      ⟨now, pc, start, i, wg, true, pre ++ WorkerPc.transferring :: List.replicate m WorkerPc.waiting,
        dur, res, ev, out⟩ rfl (by simp)
    simp only [List.length_append, List.length_singleton] at this
    rw [this]
    simp

theorem run_returnSteps (dir : Direction) (threads : Int) :
    ∀ (os : List Outcome) (pre : List WorkerPc) (s : RunnerState),
      s.workers = pre ++ List.replicate os.length WorkerPc.transferring →
      run dir threads s (returnSteps pre.length os) = some { s with
        workers := pre ++ List.replicate os.length WorkerPc.done
        wg := s.wg - (os.length : Int)
        output := s.output ++ outputs os } := by
  intro os
  induction os with
  | nil =>
    intro pre s hw
    obtain ⟨now, pc, start, i, wg, gc, ws, dur, res, ev, out⟩ := s
    simp only at hw
    subst hw
    simp [returnSteps, run, outputs]
  | cons o os ih =>
    intro pre s hw
    obtain ⟨now, pc, start, i, wg, gc, ws, dur, res, ev, out⟩ := s
    simp only at hw
    subst hw
    simp only [returnSteps, run, step, stepWorker, List.length_cons, List.replicate_succ,
      getElem_mid_some, set_mid]
    have := ih (pre ++ [WorkerPc.done])
      ⟨now, pc, start, i, wg - 1, gc,
        pre ++ WorkerPc.done :: List.replicate os.length WorkerPc.transferring,
        dur, res, ev, out ++ workerOutput o⟩ (by simp)
    simp only [List.length_append, List.length_singleton] at this
    rw [this]
    simp only [Option.some.injEq, RunnerState.mk.injEq, true_and, outputs]
    refine ⟨by omega, by simp, by simp⟩

/-- The schedule `schedule dir threads os d` runs to the end: the runner
returns after an elapsed duration `d`, whatever the outcomes `os`. -/
theorem run_schedule (dir : Direction) (threads : Int) (t0 d : ℚ) (os : List Outcome)
    (hd : 0 ≤ d) (hos : os.length = threads.toNat) :
    ∃ s, run dir threads (RunnerState.init t0) (schedule dir threads os d) = some s ∧
      s.pc = MainPc.returned ∧ s.duration = d ∧ s.output = outputs os ∧
      s.workers = List.replicate os.length WorkerPc.done := by
  have hn : ¬ ((os.length : Int) < threads) := by omega
  obtain ⟨ev0, h0⟩ : ∃ ev0, run dir threads (RunnerState.init t0)
      (mainSteps (match dir with
        | Direction.download => 1
        | Direction.upload => 2)) =
      some ⟨t0, MainPc.loop, t0, 0, 0, false, [], 0, none, ev0, []⟩ := by
    cases dir
    · exact ⟨_, rfl⟩
    · exact ⟨_, rfl⟩
  have h1 := run_spawns dir threads os.length
    ⟨t0, MainPc.loop, t0, 0, 0, false, [], 0, none, ev0, []⟩ rfl (by simp only; omega)
  simp only [Nat.zero_add, Int.zero_add, List.nil_append] at h1
  have h3 := fun ev => run_gateSteps dir threads os.length []
    ⟨t0, MainPc.wait, t0, os.length, os.length, true,
      List.replicate os.length WorkerPc.waiting, 0, none, ev, []⟩ rfl rfl
  simp only [List.length_nil, List.nil_append] at h3
  have h5 := fun ev => run_returnSteps dir threads os []
    ⟨t0 + d, MainPc.wait, t0, os.length, os.length, true,
      List.replicate os.length WorkerPc.transferring, 0, none, ev, []⟩ rfl
  simp only [List.length_nil, List.nil_append, sub_self] at h5
  unfold schedule
  rw [← hos]
  simp only [List.append_assoc]
  rw [run_append, h0, Option.some_bind, run_append, h1, Option.some_bind]
  simp only [List.singleton_append, List.cons_append, List.nil_append, List.append, run, step,
    stepMain, hn, if_false, Bool.false_eq_true]
  rw [run_append, h3, Option.some_bind]
  simp only [List.cons_append, List.nil_append, List.append, run, step, hd, if_true]
  rw [run_append, h5, Option.some_bind]
  simp [run, step, stepMain]

theorem run_skewed : run Direction.download 1 (RunnerState.init 0) skewed = some skewedFinal := by
  norm_num [run, step, stepMain, stepWorker, RunnerState.init, skewed, skewedFinal, throughput,
    dataSizeMB, workerOutput]

theorem run_gateDemo :
    run Direction.download 2 (RunnerState.init 0) gateDemo = some gateDemoState := by
  simp [run, step, stepMain, stepWorker, RunnerState.init, gateDemo, gateDemoState]

theorem throughput_eq (threads : Int) (d : ℚ) :
    throughput threads d =
      ((dataSizeMB * 1024 * 1024 : Nat) : ℚ) * 8 * (threads : ℚ) / (d * 1024 * 1024) := by
  unfold throughput
  push_cast
  ring

/-- Claim C3: for every elapsed duration `d > 0`, every parallelism `threads`
and every list `os` of per-worker outcomes (connection error, or a response
with any status code), the runner returns, and the sample it returns is
`(S * 8 * threads) / (d * 1024 * 1024)` with `S = dataSizeMB * 1024 * 1024`.
First part: the schedule realising `os` and `d` runs to the end with that
sample.  Second part: every execution, whatever its interleaving and its
outcomes, that returns with elapsed duration `d` returns that sample. -/
theorem runner_sample (dir : Direction) (threads : Int) (t0 d : ℚ) (os : List Outcome)
    (hd : 0 < d) (hos : os.length = threads.toNat) :
    (∃ s, run dir threads (RunnerState.init t0) (schedule dir threads os d) = some s ∧
      s.pc = MainPc.returned ∧ s.duration = d ∧ s.output = outputs os ∧
      s.result =
        some (((dataSizeMB * 1024 * 1024 : Nat) : ℚ) * 8 * (threads : ℚ) / (d * 1024 * 1024))) ∧
    (∀ (acts : List Action) (s : RunnerState),
      run dir threads (RunnerState.init t0) acts = some s → s.pc = MainPc.returned →
      s.duration = d →
      s.result =
        some (((dataSizeMB * 1024 * 1024 : Nat) : ℚ) * 8 * (threads : ℚ) / (d * 1024 * 1024))) := by
  have key : ∀ (acts : List Action) (s : RunnerState),
      run dir threads (RunnerState.init t0) acts = some s → s.pc = MainPc.returned →
      s.duration = d →
      s.result =
        some (((dataSizeMB * 1024 * 1024 : Nat) : ℚ) * 8 * (threads : ℚ) / (d * 1024 * 1024)) := by
    intro acts s hrun hpc hdur
    have hinv := runInv_run dir threads acts _ s (runInv_init dir threads t0) hrun
    rw [(hinv.res hpc).1, hdur, throughput_eq]
  refine ⟨?_, key⟩
  obtain ⟨s, hrun, hpc, hdur, hout, _⟩ := run_schedule dir threads t0 d os hd.le hos
  exact ⟨s, hrun, hpc, hdur, hout, key _ s hrun hpc hdur⟩

/-- Witness of claim C3: `parallelUpload` with 4 workers, 2 seconds, one connection
error and one status 500 among the outcomes. -/
theorem runner_sample_witness :
    ∃ s, run Direction.upload 4 (RunnerState.init 0)
        (schedule Direction.upload 4
          [Outcome.connError, Outcome.response 200, Outcome.response 500, Outcome.response 200]
          2) = some s ∧
      s.pc = MainPc.returned ∧ s.duration = 2 ∧
      s.output = outputs
        [Outcome.connError, Outcome.response 200, Outcome.response 500, Outcome.response 200] ∧
      s.result =
        some (((dataSizeMB * 1024 * 1024 : Nat) : ℚ) * 8 * ((4 : Int) : ℚ) / (2 * 1024 * 1024)) :=
  (runner_sample Direction.upload 4 0 2
    [Outcome.connError, Outcome.response 200, Outcome.response 500, Outcome.response 200]
    (by norm_num) rfl).1

/-- Claim C9: in every execution of `parallelDownload` and `parallelUpload`, in
every state reached, a worker that is past `<-startSignal` (about to issue its
transfer call, in the call, or returned) exists only when all `threads` workers
have been spawned and the gate has been released; the gate is released at most
once in every state and exactly once when the function has returned. -/
theorem start_gate (dir : Direction) (threads : Int) (t0 : ℚ) (acts : List Action)
    (s : RunnerState) (h : run dir threads (RunnerState.init t0) acts = some s) :
    releases s ≤ 1 ∧ (s.pc = MainPc.returned → releases s = 1) ∧
    (∀ (k : Nat) (w : WorkerPc), s.workers[k]? = some w → w ≠ WorkerPc.waiting →
      s.workers.length = threads.toNat ∧ s.gateClosed = true ∧ releases s = 1) := by
  have hinv := gateInv_run dir threads acts _ s (gateInv_init threads t0) h
  obtain ⟨hlen, hbound, hearly, hfull, hgate, hblocked, honce⟩ := hinv
  have hclosed : s.gateClosed = true → s.workers.length = threads.toNat ∧ releases s = 1 := by
    intro hg
    refine ⟨?_, by rw [honce, hg]; rfl⟩
    rw [hlen]
    exact hfull (hgate.mp hg)
  refine ⟨?_, ?_, ?_⟩
  · rw [honce]
    split_ifs <;> omega
  · intro hpc
    exact (hclosed (hgate.mpr (Or.inr (Or.inr hpc)))).2
  · intro k w hw hne
    have hg : s.gateClosed = true := by
      cases hgc : s.gateClosed
      · exact absurd (hblocked hgc w (List.getElem?_mem hw)) hne
      · rfl
    exact ⟨(hclosed hg).1, hg, (hclosed hg).2⟩

/-- Witness of claim C9: two workers, worker 0 in its transfer call. -/
theorem start_gate_witness :
    run Direction.download 2 (RunnerState.init 0) gateDemo = some gateDemoState ∧
    gateDemoState.workers[0]? = some WorkerPc.transferring ∧
    gateDemoState.workers.length = (2 : Int).toNat ∧ gateDemoState.gateClosed = true ∧
    releases gateDemoState = 1 :=
  ⟨run_gateDemo, rfl,
    (start_gate Direction.download 2 0 gateDemo gateDemoState run_gateDemo).2.2 0
      WorkerPc.transferring rfl (by decide)⟩

/-- Claim C10, amended: in every execution of `parallelDownload` and
`parallelUpload` that returns, the statements of the runner goroutine are, in
order: record `start`, (upload only) allocate the payload, spawn workers
`0 .. threads - 1`, release the gate, join, read the clock.  The start
timestamp belongs to the first of them, the duration used in the formula is
the last timestamp minus that start, and every statement in between (each
spawn and the payload allocation included) carries a timestamp inside the
measured window; all workers have returned before the clock is read. -/
theorem timing_window (dir : Direction) (threads : Int) (t0 : ℚ) (acts : List Action)
    (s : RunnerState) (h : run dir threads (RunnerState.init t0) acts = some s)
    (hret : s.pc = MainPc.returned) :
    s.events.map Prod.snd =
      [MainEvent.recordStart] ++ allocPart dir ++
        (List.range threads.toNat).map MainEvent.spawn ++
        [MainEvent.releaseGate, MainEvent.joined, MainEvent.recordEnd] ∧
    s.events.head? = some (s.start, MainEvent.recordStart) ∧
    s.events.getLast? = some (s.start + s.duration, MainEvent.recordEnd) ∧
    (s.events.map Prod.fst).Sorted (· ≤ ·) ∧
    (∀ e ∈ s.events, s.start ≤ e.1 ∧ e.1 ≤ s.start + s.duration) ∧
    (∀ w ∈ s.workers, w = WorkerPc.done) ∧
    s.result = some (throughput threads s.duration) := by
  have hinv := runInv_run dir threads acts _ s (runInv_init dir threads t0) h
  have hgate := gateInv_run dir threads acts _ s (gateInv_init threads t0) h
  obtain ⟨hres, hlast, hupper⟩ := hinv.res hret
  refine ⟨?_, hinv.startEv (by simp [hret]), hlast, hinv.chrono,
    fun e he => ⟨hinv.since e he, hupper e he⟩, hinv.allDone (Or.inr hret), hres⟩
  rw [hinv.ev, hret, ← hgate.full (Or.inr (Or.inr hret))]
  rfl

/-- Witness of claim C10 (amended) on the schedule `skewed`. -/
theorem timing_window_witness :
    skewedFinal.events.head? = some (skewedFinal.start, MainEvent.recordStart) ∧
    (∀ e ∈ skewedFinal.events,
      skewedFinal.start ≤ e.1 ∧ e.1 ≤ skewedFinal.start + skewedFinal.duration) :=
  ⟨(timing_window Direction.download 1 0 skewed skewedFinal run_skewed rfl).2.1,
    (timing_window Direction.download 1 0 skewed skewedFinal run_skewed rfl).2.2.2.2.1⟩

/-- Counterexample to claim C10 as stated: in the execution `skewed` of
`parallelDownload` with one worker the start is recorded at time 0, the worker
is spawned and the gate released at time 1, the worker returns and the clock
is read at time 2.  The duration used is 2, not `2 - 1`: the spawn lies
between the start timestamp and the release. -/
theorem timing_counterexample :
    run Direction.download 1 (RunnerState.init 0) skewed = some skewedFinal ∧
    skewedFinal.pc = MainPc.returned ∧
    skewedFinal.events = [(0, MainEvent.recordStart), (1, MainEvent.spawn 0),
      (1, MainEvent.releaseGate), (2, MainEvent.joined), (2, MainEvent.recordEnd)] ∧
    skewedFinal.duration = 2 ∧ skewedFinal.duration ≠ 2 - 1 ∧
    ¬ (∀ (dir : Direction) (threads : Int) (t0 : ℚ) (acts : List Action) (s : RunnerState),
        run dir threads (RunnerState.init t0) acts = some s → s.pc = MainPc.returned →
        ∀ tr tj : ℚ, (tr, MainEvent.releaseGate) ∈ s.events → (tj, MainEvent.joined) ∈ s.events →
          s.duration = tj - tr) := by
  refine ⟨run_skewed, rfl, rfl, rfl, by norm_num [skewedFinal], ?_⟩
  intro hall
  have := hall Direction.download 1 0 skewed skewedFinal run_skewed rfl 1 2
    (by simp [skewedFinal]) (by simp [skewedFinal])
  norm_num [skewedFinal] at this

end LanSpeedTester
